import Mathlib

/-!
Verification of the `jl2js` JSONL-to-JSON-array transcoder.

The core of the program is `process` in `src/main.rs`: it reads an input
stream line by line, parses each line as a JSON value with `serde_json`,
and writes the values back out as a single JSON array, either compactly or
pretty-printed.  This file embeds that pipeline shallowly:

* `Json` / `from_str` / `to_string` / `to_string_pretty` model the JSON
  codec capability (`serde_json` with its default `BTreeMap` object
  representation), which the specification treats as an external provided
  capability.  Numbers are modelled as arbitrary-precision integers;
  floating-point literals are outside the model.
* `rustLines` models `BufRead::lines` (split at a newline, removing the
  newline and a carriage return directly before it).
* `processLines` / `process` model the `process` function of `src/main.rs`
  on pure in-memory streams; `processReadResults` additionally models the
  `.lines().flatten()` read loop over a stream of per-line read results.
-/

/-- Modelled from the spec: the structured JSON value produced by the
external JSON codec capability (`serde_json::Value` with the default
sorted-map object representation).  Numbers are modelled as
arbitrary-precision integers; floating-point literals are not modelled. -/
inductive Json where
  | null
  | bool (b : Bool)
  | num (i : Int)
  | str (s : String)
  | arr (elems : List Json)
  | obj (fields : List (String × Json))
deriving Repr

/-- Error kinds of the modelled JSON codec.  The program only ever asks
whether a result is an error, so the exact constructor carries no weight. -/
inductive JErr where
  | eof
  | expectedValue
  | badLiteral
  | invalidNumber
  | invalidEscape
  | badUnicode
  | controlChar
  | expectedColon
  | expectedCommaOrEnd
  | expectedKey
  | trailingChars
  | fuelOut
deriving Repr, DecidableEq

/-- JSON insignificant whitespace: space, tab, line feed, carriage return. -/
def isWsChar (c : Char) : Bool :=
  c = ' ' || c = '\t' || c = '\n' || c = '\r'

/-- Drop leading JSON whitespace. -/
def skipWs : List Char → List Char
  | [] => []
  | c :: rest => if isWsChar c then skipWs rest else c :: rest

/-- Numeric value of a decimal digit character. -/
def digitVal (c : Char) : Nat := c.toNat - 48

/-- Munch decimal digits, folding them onto an accumulator. -/
def parseDigits : List Char → Nat → Nat × List Char
  | [], acc => (acc, [])
  | c :: rest, acc =>
    if c.isDigit then parseDigits rest (acc * 10 + digitVal c) else (acc, c :: rest)

/-- Whether the remaining input starts with a decimal digit. -/
def digitStart : List Char → Bool
  | c :: _ => c.isDigit
  | [] => false

/-- Whether the remaining input continues a number into a float
(fraction or exponent), which the model does not support. -/
def floatStart : List Char → Bool
  | c :: _ => c = '.' || c = 'e' || c = 'E'
  | [] => false

/-- Modelled from the spec: parsing of an unsigned JSON integer literal
(leading zeros rejected, fraction and exponent outside the model). -/
def parseNat : List Char → Except JErr (Nat × List Char)
  | [] => .error .eof
  | c :: rest =>
    if c.isDigit then
      if c = '0' then
        if digitStart rest then .error .invalidNumber
        else if floatStart rest then .error .invalidNumber
        else .ok (0, rest)
      else
        let p := parseDigits rest (digitVal c)
        if floatStart p.2 then .error .invalidNumber else .ok p
    else .error .expectedValue

/-- Numeric value of a hexadecimal digit character, if it is one. -/
def hexVal (c : Char) : Option Nat :=
  if c.isDigit then some (digitVal c)
  else if 'a' ≤ c && c ≤ 'f' then some (c.toNat - 97 + 10)
  else if 'A' ≤ c && c ≤ 'F' then some (c.toNat - 65 + 10)
  else none

/-- Value of four hexadecimal digit characters, if they all are ones. -/
def hex4 (a b c d : Char) : Option Nat :=
  match hexVal a, hexVal b, hexVal c, hexVal d with
  | some x, some y, some z, some w => some (((x * 16 + y) * 16 + z) * 16 + w)
  | _, _, _, _ => none

/-- Prepend a character to the string under construction inside a
string-body parse result. -/
def consChar (c : Char) : Except JErr (List Char × List Char) → Except JErr (List Char × List Char)
  | .error e => .error e
  | .ok (s, r) => .ok (c :: s, r)

/-- Modelled from the spec: the body of a JSON string literal, after the
opening quote.  Handles the short escapes, `\uXXXX` escapes including
surrogate pairs, and rejects raw control characters, as `serde_json` does.
The `fuel` argument only bounds the recursion: every step consumes at
least one input character, so callers pass the input length plus one and
the fuel can never run out. -/
def parseStringBody : Nat → List Char → Except JErr (List Char × List Char)
  | 0, _ => .error .fuelOut
  | _ + 1, [] => .error .eof
  | f + 1, c :: rest =>
    if c = '"' then .ok ([], rest)
    else if c = '\\' then
      match rest with
      | [] => .error .eof
      | e :: rest2 =>
        if e = '"' then consChar '"' (parseStringBody f rest2)
        else if e = '\\' then consChar '\\' (parseStringBody f rest2)
        else if e = '/' then consChar '/' (parseStringBody f rest2)
        else if e = 'b' then consChar (Char.ofNat 8) (parseStringBody f rest2)
        else if e = 'f' then consChar (Char.ofNat 12) (parseStringBody f rest2)
        else if e = 'n' then consChar '\n' (parseStringBody f rest2)
        else if e = 'r' then consChar '\r' (parseStringBody f rest2)
        else if e = 't' then consChar '\t' (parseStringBody f rest2)
        else if e = 'u' then
          match rest2 with
          | a :: b :: c1 :: d :: rest3 =>
            match hex4 a b c1 d with
            | none => .error .invalidEscape
            | some n =>
              if n < 0xD800 ∨ 0xDFFF < n then consChar (Char.ofNat n) (parseStringBody f rest3)
              else if n ≤ 0xDBFF then
                match rest3 with
                | '\\' :: 'u' :: a2 :: b2 :: c2 :: d2 :: rest4 =>
                  match hex4 a2 b2 c2 d2 with
                  | none => .error .invalidEscape
                  | some m =>
                    if 0xDC00 ≤ m ∧ m ≤ 0xDFFF then
                      consChar (Char.ofNat (0x10000 + (n - 0xD800) * 0x400 + (m - 0xDC00)))
                        (parseStringBody f rest4)
                    else .error .badUnicode
                | _ => .error .badUnicode
              else .error .badUnicode
          | _ => .error .eof
        else .error .invalidEscape
    else if c.toNat < 32 then .error .controlChar
    else consChar c (parseStringBody f rest)

/-- Expect the given literal characters at the head of the input. -/
def expectChars : List Char → List Char → Except JErr (List Char)
  | [], cs => .ok cs
  | _ :: _, [] => .error .eof
  | e :: es, c :: cs => if c = e then expectChars es cs else .error .badLiteral

/-- Lexicographic (code-point, equivalently UTF-8 byte) order on keys,
the order of the `BTreeMap` underlying `serde_json::Map`. -/
def keyLt : List Char → List Char → Bool
  | [], [] => false
  | [], _ :: _ => true
  | _ :: _, [] => false
  | a :: as, b :: bs =>
    if a.toNat < b.toNat then true
    else if b.toNat < a.toNat then false
    else keyLt as bs

/-- Insert a key-value pair into a key-sorted association list, replacing
the value if the key is already present: `BTreeMap::insert`. -/
def insertKV (k : String) (v : Json) : List (String × Json) → List (String × Json)
  | [] => [(k, v)]
  | (k2, v2) :: fs =>
    if keyLt k.data k2.data then (k, v) :: (k2, v2) :: fs
    else if keyLt k2.data k.data then (k2, v2) :: insertKV k v fs
    else (k, v) :: fs

mutual

/-- Modelled from the spec: the JSON value parser of the codec capability
(`serde_json` deserialization into `Value`).  `fuel` bounds the recursion
depth; `from_str` supplies more fuel than any input can consume. -/
def parseValue : Nat → List Char → Except JErr (Json × List Char)
  | 0, _ => .error .fuelOut
  | fuel + 1, cs =>
    match skipWs cs with
    | [] => .error .eof
    | c :: rest =>
      if c = 'n' then
        match expectChars ['u', 'l', 'l'] rest with
        | .error e => .error e
        | .ok r => .ok (.null, r)
      else if c = 't' then
        match expectChars ['r', 'u', 'e'] rest with
        | .error e => .error e
        | .ok r => .ok (.bool true, r)
      else if c = 'f' then
        match expectChars ['a', 'l', 's', 'e'] rest with
        | .error e => .error e
        | .ok r => .ok (.bool false, r)
      else if c = '"' then
        match parseStringBody (rest.length + 1) rest with
        | .error e => .error e
        | .ok (s, r) => .ok (.str (String.mk s), r)
      else if c = '-' then
        match parseNat rest with
        | .error e => .error e
        | .ok (n, r) => .ok (.num (-(n : Int)), r)
      else if c.isDigit then
        match parseNat (c :: rest) with
        | .error e => .error e
        | .ok (n, r) => .ok (.num (n : Int), r)
      else if c = '[' then
        match skipWs rest with
        | ']' :: r => .ok (.arr [], r)
        | r =>
          match parseElems fuel r with
          | .error e => .error e
          | .ok (es, r2) => .ok (.arr es, r2)
      else if c = '{' then
        match skipWs rest with
        | '}' :: r => .ok (.obj [], r)
        | r =>
          match parseMembers fuel [] r with
          | .error e => .error e
          | .ok (fs, r2) => .ok (.obj fs, r2)
      else .error .expectedValue

/-- Elements of a non-empty JSON array, returned in input order. -/
def parseElems : Nat → List Char → Except JErr (List Json × List Char)
  | 0, _ => .error .fuelOut
  | fuel + 1, cs =>
    match parseValue fuel cs with
    | .error e => .error e
    | .ok (v, rest) =>
      match skipWs rest with
      | ',' :: r =>
        match parseElems fuel r with
        | .error e => .error e
        | .ok (es, r2) => .ok (v :: es, r2)
      | ']' :: r => .ok ([v], r)
      | _ => .error .expectedCommaOrEnd

/-- Members of a non-empty JSON object, accumulated into a sorted map. -/
def parseMembers : Nat → List (String × Json) → List Char →
    Except JErr (List (String × Json) × List Char)
  | 0, _, _ => .error .fuelOut
  | fuel + 1, acc, cs =>
    match skipWs cs with
    | '"' :: rest =>
      match parseStringBody (rest.length + 1) rest with
      | .error e => .error e
      | .ok (k, r1) =>
        match skipWs r1 with
        | ':' :: r2 =>
          match parseValue fuel r2 with
          | .error e => .error e
          | .ok (v, r3) =>
            match skipWs r3 with
            | ',' :: r4 => parseMembers fuel (insertKV (String.mk k) v acc) r4
            | '}' :: r4 => .ok (insertKV (String.mk k) v acc, r4)
            | _ => .error .expectedCommaOrEnd
        | _ => .error .expectedColon
    | _ => .error .expectedKey

end

/-- Modelled from the spec: `serde_json::from_str::<Value>` — parse one
JSON value from the whole string, allowing surrounding whitespace and
rejecting trailing characters. -/
def from_str (s : String) : Except JErr Json :=
  match parseValue (s.data.length + 1) s.data with
  | .error e => .error e
  | .ok (v, rest) => if skipWs rest = [] then .ok v else .error .trailingChars

/-- Decimal digit character of a value below ten. -/
def digitToChar (d : Nat) : Char := Char.ofNat (48 + d)

/-- Decimal digits of `n`, most significant first (empty for zero).
The first argument is recursion fuel; `n` itself is always enough. -/
def natDigitsAux : Nat → Nat → List Char
  | 0, _ => []
  | f + 1, n => if n = 0 then [] else natDigitsAux f (n / 10) ++ [digitToChar (n % 10)]

/-- Decimal representation of a natural number. -/
def natRepr (n : Nat) : List Char := if n = 0 then ['0'] else natDigitsAux n n

/-- Decimal representation of an integer, as `itoa` renders a Rust `i64`. -/
def intRepr (i : Int) : List Char :=
  if i < 0 then '-' :: natRepr i.natAbs else natRepr i.natAbs

/-- Lowercase hexadecimal digit character of a value below sixteen. -/
def hexDigitChar (d : Nat) : Char :=
  if d < 10 then Char.ofNat (48 + d) else Char.ofNat (87 + d)

/-- Modelled from the spec: how `serde_json` escapes one character inside
a serialized string: quote, backslash, the five short control escapes,
`\u00XX` for the remaining control characters, everything else verbatim. -/
def escapeChar (c : Char) : List Char :=
  if c = '"' then ['\\', '"']
  else if c = '\\' then ['\\', '\\']
  else if c = Char.ofNat 8 then ['\\', 'b']
  else if c = '\t' then ['\\', 't']
  else if c = '\n' then ['\\', 'n']
  else if c = Char.ofNat 12 then ['\\', 'f']
  else if c = '\r' then ['\\', 'r']
  else if c.toNat < 32 then
    ['\\', 'u', '0', '0', hexDigitChar (c.toNat / 16), hexDigitChar (c.toNat % 16)]
  else [c]

/-- Escape every character of a string body. -/
def escapeList : List Char → List Char
  | [] => []
  | c :: rest => escapeChar c ++ escapeList rest

/-- Serialized JSON string literal. -/
def serStr (s : String) : List Char := '"' :: (escapeList s.data ++ ['"'])

mutual

/-- Modelled from the spec: the JSON serializer of the codec capability,
parameterized by the whitespace `w` emitted after an opening bracket and
after each comma (indexed by nesting depth), the whitespace `colon`
emitted after the colon of an object member, and the current depth `d`.
Compact and pretty serialization are the two instantiations below. -/
def ser (w : Nat → List Char) (colon : List Char) (d : Nat) : Json → List Char
  | .null => "null".data
  | .bool true => "true".data
  | .bool false => "false".data
  | .num i => intRepr i
  | .str s => serStr s
  | .arr [] => ['[', ']']
  | .arr (e :: es) =>
      '[' :: (w (d + 1) ++ ser w colon (d + 1) e ++ serElems w colon (d + 1) es ++ w d ++ [']'])
  | .obj [] => ['{', '}']
  | .obj ((k, v) :: fs) =>
      '{' :: (w (d + 1) ++ serStr k ++ ':' :: (colon ++ ser w colon (d + 1) v) ++
        serMembers w colon (d + 1) fs ++ w d ++ ['}'])

/-- Serialized forms of the remaining array elements, each preceded by a
comma and the configured whitespace. -/
def serElems (w : Nat → List Char) (colon : List Char) (d : Nat) : List Json → List Char
  | [] => []
  | e :: es => ',' :: (w d ++ ser w colon d e ++ serElems w colon d es)

/-- Serialized forms of the remaining object members. -/
def serMembers (w : Nat → List Char) (colon : List Char) (d : Nat) :
    List (String × Json) → List Char
  | [] => []
  | (k, v) :: fs =>
      ',' :: (w d ++ serStr k ++ ':' :: (colon ++ ser w colon d v) ++ serMembers w colon d fs)

end

/-- Whitespace configuration of compact serialization: none. -/
def wsCompact : Nat → List Char := fun _ => []

/-- Two-space indentation at the given nesting depth. -/
def indentChars (d : Nat) : List Char := List.replicate (2 * d) ' '

/-- Whitespace configuration of pretty serialization: a newline followed
by two-space indentation at the given depth. -/
def wsPretty (d : Nat) : List Char := '\n' :: indentChars d

/-- Modelled from the spec: `serde_json::to_string` — compact
serialization with no insignificant whitespace. -/
def to_string (v : Json) : String := String.mk (ser wsCompact [] 0 v)

/-- Modelled from the spec: `serde_json::to_string_pretty` — two-space
indented serialization, one element or member per line, with a space
after each colon. -/
def to_string_pretty (v : Json) : String := String.mk (ser wsPretty [' '] 0 v)

/-- Drop a final carriage return (used just before a consumed newline). -/
def dropFinalCR (acc : List Char) : List Char :=
  match acc with
  | c :: t => if c = '\r' then t else acc
  | [] => []

/-- Worker for `rustLines`; `acc` holds the current line reversed. -/
def rustLinesAux : List Char → List Char → List String
  | [], acc => if acc.isEmpty then [] else [String.mk acc.reverse]
  | c :: rest, acc =>
    if c = '\n' then String.mk (dropFinalCR acc).reverse :: rustLinesAux rest []
    else rustLinesAux rest (c :: acc)

/-- The line splitting of `BufRead::lines` (src/main.rs line 84): a line
is a maximal run terminated by a line feed or end of stream; the line
feed and a carriage return directly before it are not part of the line.
A final line feed does not produce an extra empty line. -/
def rustLines (s : String) : List String := rustLinesAux s.data []

/-- The loop of `process` (src/main.rs lines 82-104): before every line
but the first, a comma (plus a newline when pretty) is written; then the
line is parsed and its serialization appended.  A parse failure aborts. -/
def processLoop (pretty : Bool) : List String → Bool → List Char → Except JErr (List Char)
  | [], _, out => .ok out
  | line :: rest, first, out =>
    let out2 := if first then out else out ++ [','] ++ (if pretty then ['\n'] else [])
    match from_str line with
    | .error e => .error e
    | .ok value =>
      let serialized : String := if pretty then to_string_pretty value else to_string value
      processLoop pretty rest false (out2 ++ serialized.data)

/-- The `process` function of src/main.rs (lines 72-113) applied to an
already-split list of input lines: write `[`, a newline when pretty, the
loop over the lines, a newline when pretty, and `]`. -/
def processLines (lines : List String) (pretty : Bool) : Except JErr String :=
  match processLoop pretty lines true (['['] ++ (if pretty then ['\n'] else [])) with
  | .error e => .error e
  | .ok out => .ok (String.mk (out ++ (if pretty then ['\n'] else []) ++ [']']))

/-- The `process` function of src/main.rs on a whole in-memory input
text, split into lines exactly as `BufRead::lines` splits the stream. -/
def process (input : String) (pretty : Bool) : Except JErr String :=
  processLines (rustLines input) pretty

/-- The line sequence the loop of `process` actually sees when reads can
fail: `reader.lines().flatten()` (src/main.rs line 84) keeps the payloads
of successful reads and silently discards erroneous ones. -/
def flattenReadResults (items : List (Except Unit String)) : List String :=
  items.filterMap fun r => match r with | .ok s => some s | .error _ => none

/-- The `process` function of src/main.rs on a stream of per-line read
results, as produced by the `BufRead::lines` iterator: the loop iterates
over `.flatten()` of these results. -/
def processReadResults (items : List (Except Unit String)) (pretty : Bool) : Except JErr String :=
  processLines (flattenReadResults items) pretty

/-- The key is below every key of the list. -/
def ltAll (k : String) : List (String × Json) → Bool
  | [] => true
  | (k2, _) :: fs => keyLt k.data k2.data && ltAll k fs

/-- Keys are strictly sorted (pairwise below one another). -/
def sortedKeys : List (String × Json) → Bool
  | [] => true
  | (k, _) :: fs => ltAll k fs && sortedKeys fs

mutual

/-- A value the modelled parser can actually produce: every object has
strictly sorted keys (the `BTreeMap` invariant). -/
def canonical : Json → Bool
  | .null => true
  | .bool _ => true
  | .num _ => true
  | .str _ => true
  | .arr es => canonicalList es
  | .obj fs => sortedKeys fs && canonicalMembers fs

/-- All elements canonical. -/
def canonicalList : List Json → Bool
  | [] => true
  | e :: es => canonical e && canonicalList es

/-- All member values canonical. -/
def canonicalMembers : List (String × Json) → Bool
  | [] => true
  | (_, v) :: fs => canonical v && canonicalMembers fs

end

mutual

/-- Fuel sufficient for `parseValue` to parse a serialization of the
value: one unit per bracket opening plus one per element or member. -/
def sizeF : Json → Nat
  | .null => 1
  | .bool _ => 1
  | .num _ => 1
  | .str _ => 1
  | .arr [] => 1
  | .arr (e :: es) => 1 + sizeFElems (e :: es)
  | .obj [] => 1
  | .obj (f :: fs) => 1 + sizeFMembers (f :: fs)

/-- Fuel for the elements of a non-empty array. -/
def sizeFElems : List Json → Nat
  | [] => 0
  | e :: es => 1 + sizeF e + sizeFElems es

/-- Fuel for the members of a non-empty object. -/
def sizeFMembers : List (String × Json) → Nat
  | [] => 0
  | (_, v) :: fs => 1 + sizeF v + sizeFMembers fs

end

/-- Whether a result is a failure. -/
def isErr {ε α : Type} : Except ε α → Bool
  | .error _ => true
  | .ok _ => false

/-- All characters are JSON whitespace. -/
def wsOnly (l : List Char) : Bool := l.all isWsChar

/-- The character cannot continue a decimal number (neither a digit nor a
fraction or exponent introducer). -/
def notNumCont (c : Char) : Bool := !(c.isDigit || c = '.' || c = 'e' || c = 'E')

/-- The input may directly follow a serialized value without changing how
the value parses (in particular without extending a number literal). -/
def tailOk : List Char → Bool
  | [] => true
  | c :: _ => notNumCont c

/-- Every key of the list is below the given key. -/
def allLt : List (String × Json) → String → Bool
  | [], _ => true
  | (k2, _) :: fs, k => keyLt k2.data k.data && allLt fs k

/-- The whitespace layout the `process` loop of src/main.rs produces in
pretty mode: a bare newline after `[`, after each top-level comma and
before `]` (depths zero and one), and the pretty-printer layout of the
elements themselves shifted up by one depth level. -/
def wsProc : Nat → List Char
  | 0 => ['\n']
  | d + 1 => wsPretty d

/-- The separator `process` writes before every element but the first. -/
def sepChars (pretty : Bool) : List Char := ',' :: (if pretty then ['\n'] else [])

/-- The characters `process` writes for one parsed value. -/
def serChars (pretty : Bool) (v : Json) : List Char :=
  (if pretty then to_string_pretty v else to_string v).data

/-- The characters the loop of `process` writes for all elements after
the first: separator then serialized value, in order. -/
def loopTail (pretty : Bool) : List Json → List Char
  | [] => []
  | v :: vs => sepChars pretty ++ serChars pretty v ++ loopTail pretty vs

/-- Claim C2, counterexample: transcoding an empty input stream in pretty
mode does not yield `[\n]`; the code writes a newline after `[` and
another before `]` even with zero elements, so the output is `[\n\n]`. -/
theorem C2_counterexample : ¬ (process "" true = .ok "[\n]") := by
  intro h
  rw [show process "" true = .ok "[\n\n]" from rfl] at h
  exact absurd (Except.ok.inj h) (by decide)

/-- Claim C2, amended: transcoding an empty input stream (zero lines) in
pretty mode yields exactly `[\n\n]` — opening bracket, newline, one blank
line, closing bracket; equivalently, one stray blank line sits between
the brackets. -/
theorem C2_empty_pretty :
    process "" true = .ok "[\n\n]" ∧ processLines [] true = .ok "[\n\n]" :=
  ⟨rfl, rfl⟩

/-- Claim C3: the code does not satisfy the read half of the claim.  The
loop iterates over `reader.lines().flatten()`, and `flatten` on a stream
of read results silently discards errors: a stream whose first read fails
still transcodes to a complete, successful array instead of aborting. -/
theorem C3_read_error_not_propagated :
    processReadResults [.error (), .ok "[]"] false = .ok "[[]]" ∧
    processReadResults [.error ()] false = .ok "[]" :=
  ⟨rfl, rfl⟩

/-- Claim C5: transcoding an empty input stream (zero lines, in
particular the completely empty stream) in compact mode succeeds with
exactly the two-character output `[]`. -/
theorem C5_empty_compact :
    process "" false = .ok "[]" ∧ processLines [] false = .ok "[]" :=
  ⟨rfl, rfl⟩

/-- Claim C6: the two input lines `{"foo": "bar"}` and `{"foo": "baz"}`
transcode in compact mode to exactly `[{"foo":"bar"},{"foo":"baz"}]`,
with the internal spacing of the input lines not reproduced. -/
theorem C6_compact_exact :
    process "\x7b\"foo\": \"bar\"\x7d\n\x7b\"foo\": \"baz\"\x7d" false
      = .ok "[\x7b\"foo\":\"bar\"\x7d,\x7b\"foo\":\"baz\"\x7d]" := rfl

/-- Claim C7: the two input lines `{"foo": "bar"}` and `{"foo": "baz"}`
transcode in pretty mode to exactly
`[\n{\n  "foo": "bar"\n},\n{\n  "foo": "baz"\n}\n]`. -/
theorem C7_pretty_exact :
    process "\x7b\"foo\": \"bar\"\x7d\n\x7b\"foo\": \"baz\"\x7d" true
      = .ok "[\n\x7b\n  \"foo\": \"bar\"\n\x7d,\n\x7b\n  \"foo\": \"baz\"\n\x7d\n]" := rfl

/-- Claim C10: transcoding is deterministic — two runs on identical line
sequences with the same pretty flag return identical results, byte for
byte.  The embedding of `process` is a pure function of the line sequence
and the flag, which is exactly this property. -/
theorem C10_deterministic (lines1 lines2 : List String) (p1 p2 : Bool)
    (hl : lines1 = lines2) (hp : p1 = p2) :
    processLines lines1 p1 = processLines lines2 p2 := by
  subst hl; subst hp; rfl

/-- Witness for C10 at a concrete run. -/
theorem C10_witness :
    processLines ["\x7b\"foo\": \"bar\"\x7d"] true = processLines ["\x7b\"foo\": \"bar\"\x7d"] true :=
  C10_deterministic _ _ _ _ rfl rfl

theorem processLoop_isErr (pretty : Bool) :
    ∀ (lines : List String) (first : Bool) (out : List Char),
    (∃ l ∈ lines, isErr (from_str l) = true) →
    isErr (processLoop pretty lines first out) = true := by
  intro lines
  induction lines with
  | nil =>
    intro first out h
    obtain ⟨l, hl, _⟩ := h
    exact absurd hl (List.not_mem_nil l)
  | cons line rest ih =>
    intro first out h
    obtain ⟨l, hl, herr⟩ := h
    simp only [processLoop]
    cases hfs : from_str line with
    | error e => rfl
    | ok v =>
      rcases List.mem_cons.mp hl with h1 | h1
      · subst h1
        rw [hfs] at herr
        exact absurd herr (by simp [isErr])
      · exact ih false _ ⟨l, h1, herr⟩

theorem processLines_isErr (pretty : Bool) (lines : List String)
    (h : ∃ l ∈ lines, isErr (from_str l) = true) :
    isErr (processLines lines pretty) = true := by
  unfold processLines
  have hloop := processLoop_isErr pretty lines true
    (['['] ++ (if pretty then ['\n'] else [])) h
  cases hp : processLoop pretty lines true (['['] ++ (if pretty then ['\n'] else [])) with
  | error e => rfl
  | ok out => rw [hp] at hloop; exact absurd hloop (by simp [isErr])

theorem processLoop_stops_at_error (pretty : Bool) (bad : String)
    (hbad : isErr (from_str bad) = true) (post post' : List String) :
    ∀ (pre : List String) (first : Bool) (out : List Char),
    processLoop pretty (pre ++ bad :: post) first out
      = processLoop pretty (pre ++ bad :: post') first out := by
  intro pre
  induction pre with
  | nil =>
    intro first out
    simp only [List.nil_append, processLoop]
    cases hfs : from_str bad with
    | error e => rfl
    | ok v => rw [hfs] at hbad; exact absurd hbad (by simp [isErr])
  | cons l pre' ih =>
    intro first out
    simp only [List.cons_append, processLoop]
    cases hfs : from_str l with
    | error e => rfl
    | ok v => exact ih false _

/-- Claim C4: an input containing a line that is not valid JSON makes the
whole run return a failure rather than a complete array, and the run
aborts at the point of that line: nothing after the offending line can
influence the result (so the line is neither retried nor skipped). -/
theorem C4_invalid_line_aborts (pretty : Bool) (pre post post' : List String)
    (bad : String) (hbad : isErr (from_str bad) = true) :
    isErr (processLines (pre ++ bad :: post) pretty) = true ∧
    processLines (pre ++ bad :: post) pretty
      = processLines (pre ++ bad :: post') pretty := by
  refine ⟨processLines_isErr pretty _ ⟨bad, by simp, hbad⟩, ?_⟩
  unfold processLines
  rw [processLoop_stops_at_error pretty bad hbad post post' pre]

/-- Witness for C4 at the malformed line of the spec,
`{"foo": "bar"}{"foo": "baz`, with differing suffixes after it. -/
theorem C4_witness :
    isErr (processLines ["\x7b\"foo\": \"bar\"\x7d\x7b\"foo\": \"baz"] false) = true ∧
    processLines ["\x7b\"foo\": \"bar\"\x7d\x7b\"foo\": \"baz"] false
      = processLines (["\x7b\"foo\": \"bar\"\x7d\x7b\"foo\": \"baz"] ++ ["true"]) false := by
  have h := C4_invalid_line_aborts false [] [] ["true"]
    "\x7b\"foo\": \"bar\"\x7d\x7b\"foo\": \"baz" (by rfl)
  simpa using h

/-- Claim C8: an input whose line splitting contains an empty line (for
example a blank line in the middle of the file) makes the run fail: the
blank line is passed to the parser, an empty string is not valid JSON,
and the splitting step never drops blank lines. -/
theorem C8_blank_line_fails (input : String) (pretty : Bool)
    (h : "" ∈ rustLines input) :
    isErr (process input pretty) = true := by
  unfold process
  exact processLines_isErr pretty (rustLines input) ⟨"", h, rfl⟩

/-- Witness for C8: a blank line between two valid lines is kept by the
splitter and causes a failure. -/
theorem C8_witness :
    ("" ∈ rustLines "\x7b\x7d\n\n\x7b\x7d") ∧ isErr (process "\x7b\x7d\n\n\x7b\x7d" false) = true :=
  ⟨by decide, C8_blank_line_fails "\x7b\x7d\n\n\x7b\x7d" false (by decide)⟩

theorem rustLinesAux_cons (c : Char) (rest acc : List Char) :
    rustLinesAux (c :: rest) acc
      = if c = '\n' then String.mk (dropFinalCR acc).reverse :: rustLinesAux rest []
        else rustLinesAux rest (c :: acc) := rfl

theorem dropFinalCR_cons (c : Char) (t : List Char) :
    dropFinalCR (c :: t) = if c = '\r' then t else c :: t := rfl

theorem rustLinesAux_append_newline :
    ∀ (cs : List Char) (acc : List Char), cs ≠ [] →
    cs.getLast? ≠ some '\n' → cs.getLast? ≠ some '\r' →
    rustLinesAux (cs ++ ['\n']) acc = rustLinesAux cs acc := by
  intro cs
  induction cs with
  | nil => intro acc h _ _; exact absurd rfl h
  | cons c cs' ih =>
    intro acc _ h1 h2
    cases cs' with
    | nil =>
      have hc1 : c ≠ '\n' := by intro hh; subst hh; simp at h1
      have hc2 : c ≠ '\r' := by intro hh; subst hh; simp at h2
      show rustLinesAux (c :: ['\n']) acc = rustLinesAux (c :: []) acc
      rw [rustLinesAux_cons c ['\n'] acc, if_neg hc1]
      rw [rustLinesAux_cons c [] acc, if_neg hc1]
      show String.mk (dropFinalCR (c :: acc)).reverse :: ([] : List String)
        = [String.mk (c :: acc).reverse]
      rw [dropFinalCR_cons, if_neg hc2]
    | cons c2 cs'' =>
      have hl1 : (c2 :: cs'').getLast? ≠ some '\n' := by
        rwa [List.getLast?_cons_cons] at h1
      have hl2 : (c2 :: cs'').getLast? ≠ some '\r' := by
        rwa [List.getLast?_cons_cons] at h2
      by_cases hc : c = '\n'
      · subst hc
        show String.mk (dropFinalCR acc).reverse :: rustLinesAux ((c2 :: cs'') ++ ['\n']) []
          = String.mk (dropFinalCR acc).reverse :: rustLinesAux (c2 :: cs'') []
        rw [ih [] (by simp) hl1 hl2]
      · show rustLinesAux (c :: ((c2 :: cs'') ++ ['\n'])) acc
          = rustLinesAux (c :: (c2 :: cs'')) acc
        rw [rustLinesAux_cons, rustLinesAux_cons, if_neg hc, if_neg hc]
        exact ih (c :: acc) (by simp) hl1 hl2

theorem rustLines_append_newline (input : String) (hne : input ≠ "")
    (h1 : input.data.getLast? ≠ some '\n') (h2 : input.data.getLast? ≠ some '\r') :
    rustLines (input ++ "\n") = rustLines input := by
  have hne' : input.data ≠ [] := by
    intro h0
    apply hne
    cases input with
    | mk d => cases h0; rfl
  show rustLinesAux (input.data ++ ['\n']) [] = rustLinesAux input.data []
  exact rustLinesAux_append_newline input.data [] hne' h1 h2

/-- Claim C9: appending a single trailing line feed to a non-empty input
text that does not already end in a line break (a line feed or a carriage
return) leaves the transcoding result unchanged: the trailing line break
neither adds an element nor causes a failure. -/
theorem C9_trailing_newline (input : String) (pretty : Bool) (hne : input ≠ "")
    (h1 : input.data.getLast? ≠ some '\n') (h2 : input.data.getLast? ≠ some '\r') :
    process (input ++ "\n") pretty = process input pretty := by
  unfold process
  rw [rustLines_append_newline input hne h1 h2]

/-- Witness for C9 on the input text `{}` without a final newline. -/
theorem C9_witness : process ("\x7b\x7d" ++ "\n") false = process "\x7b\x7d" false :=
  C9_trailing_newline "\x7b\x7d" false (by decide) (by decide) (by decide)

theorem skipWs_cons_of_not (c : Char) (rest : List Char) (h : isWsChar c = false) :
    skipWs (c :: rest) = c :: rest := by
  simp [skipWs, h]

theorem skipWs_append (l : List Char) (h : wsOnly l = true) (rest : List Char) :
    skipWs (l ++ rest) = skipWs rest := by
  induction l with
  | nil => rfl
  | cons c t ih =>
    simp only [wsOnly, List.all_cons, Bool.and_eq_true] at h
    simp [skipWs, h.1, ih h.2]

theorem ws_char_cases (c : Char) (h : isWsChar c = true) :
    c = ' ' ∨ c = '\t' ∨ c = '\n' ∨ c = '\r' := by
  have h2 := h
  simp only [isWsChar, Bool.or_eq_true, decide_eq_true_eq] at h2
  tauto

theorem digit_not_ws (c : Char) (h : c.isDigit = true) : isWsChar c = false := by
  cases hw : isWsChar c with
  | false => rfl
  | true =>
    exfalso
    rcases ws_char_cases c hw with h1 | h1 | h1 | h1 <;>
      (subst h1; exact absurd h (by decide))

theorem digit_ne (c : Char) (h : c.isDigit = true) (d : Char) (hd : d.isDigit = false) :
    c ≠ d := by
  intro he
  rw [he] at h
  rw [h] at hd
  exact absurd hd (by decide)

theorem digitToChar_isDigit : ∀ d, d < 10 → (digitToChar d).isDigit = true := by decide

theorem digitVal_digitToChar : ∀ d, d < 10 → digitVal (digitToChar d) = d := by decide

theorem digitToChar_ne_zero : ∀ d, d < 10 → 0 < d → digitToChar d ≠ '0' := by decide

theorem parseDigits_stop (rest : List Char) (acc : Nat) (h : digitStart rest = false) :
    parseDigits rest acc = (acc, rest) := by
  cases rest with
  | nil => rfl
  | cons c t => simp [parseDigits, show c.isDigit = false from h]

theorem parseDigits_append (ds : List Char) (h : ds.all Char.isDigit = true) :
    ∀ (rest : List Char) (acc : Nat),
    parseDigits (ds ++ rest) acc
      = parseDigits rest (ds.foldl (fun a c => a * 10 + digitVal c) acc) := by
  induction ds with
  | nil => intro rest acc; rfl
  | cons c t ih =>
    simp only [List.all_cons, Bool.and_eq_true] at h
    intro rest acc
    simp [parseDigits, h.1, ih h.2]

theorem natDigitsAux_zero (f : Nat) : natDigitsAux f 0 = [] := by
  cases f with
  | zero => rfl
  | succ g => rfl

theorem natDigitsAux_all_digits : ∀ f n, (natDigitsAux f n).all Char.isDigit = true := by
  intro f
  induction f with
  | zero => intro n; rfl
  | succ f ih =>
    intro n
    by_cases h0 : n = 0
    · simp [natDigitsAux, h0]
    · simp [natDigitsAux, h0, List.all_append, ih,
        digitToChar_isDigit (n % 10) (Nat.mod_lt n (by omega))]

theorem natDigitsAux_foldl :
    ∀ f n acc, n ≤ f →
    (natDigitsAux f n).foldl (fun a c => a * 10 + digitVal c) acc
      = acc * 10 ^ (natDigitsAux f n).length + n := by
  intro f
  induction f with
  | zero =>
    intro n acc h
    have h0 : n = 0 := by omega
    subst h0
    simp [natDigitsAux]
  | succ f ih =>
    intro n acc h
    by_cases h0 : n = 0
    · subst h0; simp [natDigitsAux]
    · have hdiv : n / 10 ≤ f := by
        have := Nat.div_lt_self (by omega : 0 < n) (by omega : 1 < 10)
        omega
      rw [show natDigitsAux (f + 1) n = natDigitsAux f (n / 10) ++ [digitToChar (n % 10)] by
        simp [natDigitsAux, h0]]
      rw [List.foldl_append, ih (n / 10) acc hdiv]
      simp only [List.foldl_cons, List.foldl_nil, List.length_append, List.length_singleton]
      rw [digitVal_digitToChar (n % 10) (Nat.mod_lt n (by omega))]
      have key : 10 * (n / 10) + n % 10 = n := Nat.div_add_mod n 10
      have e1 : (acc * 10 ^ (natDigitsAux f (n / 10)).length + n / 10) * 10 + n % 10
          = acc * (10 ^ (natDigitsAux f (n / 10)).length * 10) + (10 * (n / 10) + n % 10) := by
        ring
      rw [e1, key, pow_succ]

theorem natDigits_head :
    ∀ f n, 0 < n → n ≤ f →
    ∃ d ds, natDigitsAux f n = d :: ds ∧ d.isDigit = true ∧ d ≠ '0' := by
  intro f
  induction f with
  | zero => intro n hn hle; omega
  | succ f ih =>
    intro n hn hle
    rw [show natDigitsAux (f + 1) n = natDigitsAux f (n / 10) ++ [digitToChar (n % 10)] by
      simp [natDigitsAux, show ¬ n = 0 by omega]]
    by_cases hq : n / 10 = 0
    · have hlt : n < 10 := by omega
      have hmod : n % 10 = n := Nat.mod_eq_of_lt hlt
      rw [hq, natDigitsAux_zero, List.nil_append]
      exact ⟨digitToChar (n % 10), [], rfl,
        digitToChar_isDigit (n % 10) (Nat.mod_lt n (by omega)),
        by rw [hmod]; exact digitToChar_ne_zero n hlt hn⟩
    · have hdiv : n / 10 ≤ f := by
        have := Nat.div_lt_self (by omega : 0 < n) (by omega : 1 < 10)
        omega
      obtain ⟨d, ds, heq, h1, h2⟩ := ih (n / 10) (by omega) hdiv
      exact ⟨d, ds ++ [digitToChar (n % 10)], by rw [heq]; rfl, h1, h2⟩

theorem tailOk_digitStart (rest : List Char) (h : tailOk rest = true) :
    digitStart rest = false := by
  cases rest with
  | nil => rfl
  | cons c t =>
    simp only [tailOk, notNumCont, Bool.not_eq_true', Bool.or_eq_false_iff] at h
    exact h.1.1.1

theorem tailOk_floatStart (rest : List Char) (h : tailOk rest = true) :
    floatStart rest = false := by
  cases rest with
  | nil => rfl
  | cons c t =>
    simp only [tailOk, notNumCont, Bool.not_eq_true', Bool.or_eq_false_iff] at h
    simp [floatStart, h.1.1.2, h.1.2, h.2]

theorem parseNat_natRepr (n : Nat) (rest : List Char) (h : tailOk rest = true) :
    parseNat (natRepr n ++ rest) = .ok (n, rest) := by
  have hds : digitStart rest = false := tailOk_digitStart rest h
  have hfs : floatStart rest = false := tailOk_floatStart rest h
  by_cases h0 : n = 0
  · subst h0
    show parseNat ('0' :: rest) = .ok (0, rest)
    simp [parseNat, hds, hfs]
  · obtain ⟨d, ds, heq, hdig, hne0⟩ := natDigits_head n n (by omega) le_rfl
    have hall := natDigitsAux_all_digits n n
    rw [heq] at hall
    simp only [List.all_cons, Bool.and_eq_true] at hall
    rw [show natRepr n = d :: ds by simp [natRepr, h0, heq]]
    show parseNat (d :: (ds ++ rest)) = .ok (n, rest)
    simp only [parseNat, hdig, if_true, if_neg hne0]
    rw [parseDigits_append ds hall.2, parseDigits_stop rest _ hds]
    have hfold : (d :: ds).foldl (fun a c => a * 10 + digitVal c) 0 = n := by
      have := natDigitsAux_foldl n n 0 le_rfl
      rw [heq] at this
      simpa using this
    simp only [List.foldl_cons] at hfold
    simp only [Nat.zero_mul, Nat.zero_add] at hfold
    simp [hfold, hfs]

theorem parseStringBody_escapeChar (c : Char) (f : Nat) (tail : List Char) :
    parseStringBody (f + 1) (escapeChar c ++ tail) = consChar c (parseStringBody f tail) := by
  by_cases h1 : c = '"'
  · subst h1; rfl
  by_cases h2 : c = '\\'
  · subst h2; rfl
  by_cases h3 : c = Char.ofNat 8
  · subst h3; rfl
  by_cases h4 : c = '\t'
  · subst h4; rfl
  by_cases h5 : c = '\n'
  · subst h5; rfl
  by_cases h6 : c = Char.ofNat 12
  · subst h6; rfl
  by_cases h7 : c = '\r'
  · subst h7; rfl
  by_cases h8 : c.toNat < 32
  · obtain ⟨m, hm, rfl⟩ : ∃ m, m < 32 ∧ Char.ofNat m = c := ⟨c.toNat, h8, Char.ofNat_toNat c⟩
    interval_cases m <;> rfl
  · rw [show escapeChar c = [c] from by
      simp [escapeChar, h1, h2, h3, h4, h5, h6, h7, h8]]
    rw [List.singleton_append]
    simp only [parseStringBody]
    rw [if_neg h1, if_neg h2, if_neg h8]

theorem parseStringBody_escapeList :
    ∀ (s : List Char) (f : Nat) (tail : List Char), s.length < f →
    parseStringBody f (escapeList s ++ ('"' :: tail)) = .ok (s, tail) := by
  intro s
  induction s with
  | nil =>
    intro f tail h
    obtain ⟨g, rfl⟩ : ∃ g, f = g + 1 := ⟨f - 1, by omega⟩
    rfl
  | cons c t ih =>
    intro f tail h
    obtain ⟨g, rfl⟩ : ∃ g, f = g + 1 := ⟨f - 1, by omega⟩
    rw [show escapeList (c :: t) = escapeChar c ++ escapeList t from rfl, List.append_assoc,
      parseStringBody_escapeChar, ih g tail (by simp at h; omega)]
    rfl

theorem char_toNat_inj (x y : Char) (h : x.toNat = y.toNat) : x = y :=
  Char.eq_of_val_eq (UInt32.toNat.inj h)

theorem string_data_inj (s t : String) (h : s.data = t.data) : s = t := by
  cases s; cases t; cases h; rfl

theorem keyLt_asymm : ∀ a b, keyLt a b = true → keyLt b a = false := by
  intro a
  induction a with
  | nil =>
    intro b h
    cases b with
    | nil => exact absurd h (by simp [keyLt])
    | cons y ys => rfl
  | cons x xs ih =>
    intro b h
    cases b with
    | nil => exact absurd h (by simp [keyLt])
    | cons y ys =>
      simp only [keyLt] at h ⊢
      by_cases hxy : x.toNat < y.toNat
      · rw [if_neg (by omega : ¬ y.toNat < x.toNat), if_pos hxy]
      · rw [if_neg hxy] at h
        by_cases hyx : y.toNat < x.toNat
        · rw [if_pos hyx] at h; exact absurd h (by simp)
        · rw [if_neg hyx] at h
          rw [if_neg hyx, if_neg hxy]
          exact ih ys h

theorem keyLt_trans : ∀ a b c, keyLt a b = true → keyLt b c = true → keyLt a c = true := by
  intro a
  induction a with
  | nil =>
    intro b c h1 h2
    cases b with
    | nil => exact absurd h1 (by simp [keyLt])
    | cons y ys =>
      cases c with
      | nil => exact absurd h2 (by simp [keyLt])
      | cons z zs => simp [keyLt]
  | cons x xs ih =>
    intro b c h1 h2
    cases b with
    | nil => exact absurd h1 (by simp [keyLt])
    | cons y ys =>
      cases c with
      | nil => exact absurd h2 (by simp [keyLt])
      | cons z zs =>
        simp only [keyLt] at h1 h2 ⊢
        by_cases hxy : x.toNat < y.toNat
        · by_cases hyz : y.toNat < z.toNat
          · rw [if_pos (by omega : x.toNat < z.toNat)]
          · rw [if_neg hyz] at h2
            by_cases hzy : z.toNat < y.toNat
            · rw [if_pos hzy] at h2; exact absurd h2 (by simp)
            · rw [if_pos (by omega : x.toNat < z.toNat)]
        · rw [if_neg hxy] at h1
          by_cases hyx : y.toNat < x.toNat
          · rw [if_pos hyx] at h1; exact absurd h1 (by simp)
          · rw [if_neg hyx] at h1
            by_cases hyz : y.toNat < z.toNat
            · rw [if_pos (by omega : x.toNat < z.toNat)]
            · rw [if_neg hyz] at h2
              by_cases hzy : z.toNat < y.toNat
              · rw [if_pos hzy] at h2; exact absurd h2 (by simp)
              · rw [if_neg hzy] at h2
                rw [if_neg (by omega : ¬ x.toNat < z.toNat),
                  if_neg (by omega : ¬ z.toNat < x.toNat)]
                exact ih ys zs h1 h2

theorem keyLt_conn : ∀ a b, keyLt a b = false → keyLt b a = false → a = b := by
  intro a
  induction a with
  | nil =>
    intro b h1 _
    cases b with
    | nil => rfl
    | cons y ys => exact absurd h1 (by simp [keyLt])
  | cons x xs ih =>
    intro b h1 h2
    cases b with
    | nil => exact absurd h2 (by simp [keyLt])
    | cons y ys =>
      simp only [keyLt] at h1 h2
      by_cases hxy : x.toNat < y.toNat
      · rw [if_pos hxy] at h1; exact absurd h1 (by simp)
      · by_cases hyx : y.toNat < x.toNat
        · rw [if_pos hyx] at h2; exact absurd h2 (by simp)
        · rw [if_neg hxy, if_neg hyx] at h1
          rw [if_neg hyx, if_neg hxy] at h2
          rw [char_toNat_inj x y (by omega), ih ys h1 h2]

theorem allLt_spec : ∀ (fs : List (String × Json)) (k : String),
    allLt fs k = true ↔ ∀ p ∈ fs, keyLt p.1.data k.data = true := by
  intro fs k
  induction fs with
  | nil => simp [allLt]
  | cons p fs ih =>
    obtain ⟨k2, v2⟩ := p
    simp [allLt, ih]

theorem ltAll_spec : ∀ (k : String) (fs : List (String × Json)),
    ltAll k fs = true ↔ ∀ p ∈ fs, keyLt k.data p.1.data = true := by
  intro k fs
  induction fs with
  | nil => simp [ltAll]
  | cons p fs ih =>
    obtain ⟨k2, v2⟩ := p
    simp [ltAll, ih]

theorem canonicalMembers_spec : ∀ (fs : List (String × Json)),
    canonicalMembers fs = true ↔ ∀ p ∈ fs, canonical p.2 = true := by
  intro fs
  induction fs with
  | nil => simp [canonicalMembers]
  | cons p fs ih =>
    obtain ⟨k2, v2⟩ := p
    simp [canonicalMembers, ih]

theorem canonicalList_spec : ∀ (es : List Json),
    canonicalList es = true ↔ ∀ e ∈ es, canonical e = true := by
  intro es
  induction es with
  | nil => simp [canonicalList]
  | cons e es ih => simp [canonicalList, ih]

theorem insertKV_append : ∀ (fs : List (String × Json)) (k : String) (v : Json),
    allLt fs k = true → insertKV k v fs = fs ++ [(k, v)] := by
  intro fs
  induction fs with
  | nil => intro k v _; rfl
  | cons p fs ih =>
    obtain ⟨k2, v2⟩ := p
    intro k v h
    simp only [allLt, Bool.and_eq_true] at h
    simp only [insertKV]
    rw [if_neg (by rw [keyLt_asymm _ _ h.1]; simp), if_pos h.1, ih k v h.2]
    rfl

theorem mem_insertKV : ∀ (fs : List (String × Json)) (k : String) (v : Json) p,
    p ∈ insertKV k v fs → p ∈ fs ∨ p = (k, v) := by
  intro fs
  induction fs with
  | nil =>
    intro k v p h
    simp only [insertKV, List.mem_singleton] at h
    exact Or.inr h
  | cons q fs ih =>
    obtain ⟨k2, v2⟩ := q
    intro k v p h
    simp only [insertKV] at h
    by_cases h1 : keyLt k.data k2.data
    · rw [if_pos h1] at h
      rcases List.mem_cons.mp h with h2 | h2
      · exact Or.inr h2
      · exact Or.inl h2
    · rw [if_neg h1] at h
      by_cases h2 : keyLt k2.data k.data
      · rw [if_pos h2] at h
        rcases List.mem_cons.mp h with h3 | h3
        · exact Or.inl (List.mem_cons.mpr (Or.inl h3))
        · rcases ih k v p h3 with h4 | h4
          · exact Or.inl (List.mem_cons.mpr (Or.inr h4))
          · exact Or.inr h4
      · rw [if_neg h2] at h
        rcases List.mem_cons.mp h with h3 | h3
        · exact Or.inr h3
        · exact Or.inl (List.mem_cons.mpr (Or.inr h3))

theorem ltAll_insertKV (fs : List (String × Json)) (k0 k : String) (v : Json)
    (h : ltAll k0 fs = true) (hk : keyLt k0.data k.data = true) :
    ltAll k0 (insertKV k v fs) = true := by
  rw [ltAll_spec]
  intro p hp
  rcases mem_insertKV fs k v p hp with h2 | h2
  · exact (ltAll_spec k0 fs).mp h p h2
  · rw [h2]; exact hk

theorem sortedKeys_insertKV : ∀ (fs : List (String × Json)) (k : String) (v : Json),
    sortedKeys fs = true → sortedKeys (insertKV k v fs) = true := by
  intro fs
  induction fs with
  | nil => intro k v _; rfl
  | cons q fs ih =>
    obtain ⟨k2, v2⟩ := q
    intro k v h
    simp only [sortedKeys, Bool.and_eq_true] at h
    simp only [insertKV]
    by_cases h1 : keyLt k.data k2.data
    · rw [if_pos h1]
      have hA : ltAll k ((k2, v2) :: fs) = true := by
        simp only [ltAll, Bool.and_eq_true]
        refine ⟨h1, ?_⟩
        rw [ltAll_spec]
        intro p hp
        exact keyLt_trans _ _ _ h1 ((ltAll_spec k2 fs).mp h.1 p hp)
      simp [sortedKeys, hA, h.1, h.2]
    · rw [if_neg h1]
      by_cases h2 : keyLt k2.data k.data
      · rw [if_pos h2]
        simp [sortedKeys, ltAll_insertKV fs k2 k v h.1 h2, ih k v h.2]
      · rw [if_neg h2]
        have hkk : k = k2 := by
          have := keyLt_conn k.data k2.data (by simpa using h1) (by simpa using h2)
          exact string_data_inj k k2 this
        subst hkk
        simp [sortedKeys, h.1, h.2]

theorem canonicalMembers_insertKV (fs : List (String × Json)) (k : String) (v : Json)
    (h : canonicalMembers fs = true) (hv : canonical v = true) :
    canonicalMembers (insertKV k v fs) = true := by
  rw [canonicalMembers_spec]
  intro p hp
  rcases mem_insertKV fs k v p hp with h2 | h2
  · exact (canonicalMembers_spec fs).mp h p h2
  · rw [h2]; exact hv

theorem parse_canonical : ∀ fuel : Nat,
    (∀ cs v r, parseValue fuel cs = .ok (v, r) → canonical v = true) ∧
    (∀ cs es r, parseElems fuel cs = .ok (es, r) → canonicalList es = true) ∧
    (∀ acc cs fs r, sortedKeys acc = true → canonicalMembers acc = true →
      parseMembers fuel acc cs = .ok (fs, r) →
      sortedKeys fs = true ∧ canonicalMembers fs = true) := by
  intro fuel
  induction fuel with
  | zero =>
    refine ⟨?_, ?_, ?_⟩
    · intro cs v r h; exact absurd h (by simp [parseValue])
    · intro cs es r h; exact absurd h (by simp [parseElems])
    · intro acc cs fs r _ _ h; exact absurd h (by simp [parseMembers])
  | succ fuel ih =>
    obtain ⟨ihV, ihE, ihM⟩ := ih
    refine ⟨?_, ?_, ?_⟩
    · -- parseValue: every produced value is canonical
      intro cs v r h
      simp only [parseValue] at h
      repeat' split at h
      all_goals try exact Except.noConfusion h
      all_goals simp only [Except.ok.injEq, Prod.mk.injEq] at h
      all_goals rw [← h.1]
      all_goals try rfl
      all_goals simp only [canonical, Bool.and_eq_true]
      all_goals first
        | exact ihE _ _ _ (by assumption)
        | exact ⟨(ihM [] _ _ _ rfl rfl (by assumption)).1,
            (ihM [] _ _ _ rfl rfl (by assumption)).2⟩
    · -- parseElems: every produced element list is canonical
      intro cs es r h
      simp only [parseElems] at h
      repeat' split at h
      all_goals try exact Except.noConfusion h
      all_goals simp only [Except.ok.injEq, Prod.mk.injEq] at h
      all_goals rw [← h.1]
      all_goals simp only [canonicalList, Bool.and_eq_true]
      all_goals first
        | exact ⟨ihV _ _ _ (by assumption), ihE _ _ _ (by assumption)⟩
        | exact ⟨ihV _ _ _ (by assumption), trivial⟩
    · -- parseMembers: the accumulated map stays sorted and canonical
      intro acc cs fs r hs hm h
      simp only [parseMembers] at h
      repeat' split at h
      all_goals try exact Except.noConfusion h
      all_goals first
        | exact ihM _ _ _ _ (sortedKeys_insertKV acc _ _ hs)
            (canonicalMembers_insertKV acc _ _ hm (ihV _ _ _ (by assumption))) h
        | (simp only [Except.ok.injEq, Prod.mk.injEq] at h
           rw [← h.1]
           exact ⟨sortedKeys_insertKV acc _ _ hs,
             canonicalMembers_insertKV acc _ _ hm (ihV _ _ _ (by assumption))⟩)

theorem ws_notNumCont (c : Char) (h : isWsChar c = true) : notNumCont c = true := by
  rcases ws_char_cases c h with h1 | h1 | h1 | h1 <;> (subst h1; decide)

theorem tailOk_ws_close (l : List Char) (c0 : Char) (rest : List Char)
    (hl : wsOnly l = true) (hc : notNumCont c0 = true) :
    tailOk (l ++ c0 :: rest) = true := by
  cases l with
  | nil => exact hc
  | cons c t =>
    simp only [wsOnly, List.all_cons, Bool.and_eq_true] at hl
    simpa [tailOk] using ws_notNumCont c hl.1

theorem wsOnly_wsCompact (d : Nat) : wsOnly (wsCompact d) = true := rfl

theorem wsOnly_wsPretty (d : Nat) : wsOnly (wsPretty d) = true := by
  simp only [wsOnly, wsPretty, indentChars, List.all_cons, Bool.and_eq_true]
  refine ⟨by decide, ?_⟩
  rw [List.all_eq_true]
  intro c hc
  rw [List.eq_of_mem_replicate hc]
  decide

theorem wsOnly_wsProc (d : Nat) : wsOnly (wsProc d) = true := by
  cases d with
  | zero => decide
  | succ k => exact wsOnly_wsPretty k

theorem sizeF_pos : ∀ v : Json, 1 ≤ sizeF v := by
  intro v
  cases v with
  | null => simp [sizeF]
  | bool b => simp [sizeF]
  | num i => simp [sizeF]
  | str s => simp [sizeF]
  | arr es => cases es <;> simp [sizeF]
  | obj fs => cases fs <;> simp [sizeF]

theorem ser_head (w : Nat → List Char) (colon : List Char) (d : Nat) (v : Json) :
    ∃ c t, ser w colon d v = c :: t ∧ isWsChar c = false ∧ c ≠ ']' ∧ c ≠ '}' := by
  cases v with
  | null => exact ⟨'n', ['u', 'l', 'l'], by simp [ser], by decide, by decide, by decide⟩
  | bool b =>
    cases b with
    | true => exact ⟨'t', ['r', 'u', 'e'], by simp [ser], by decide, by decide, by decide⟩
    | false => exact ⟨'f', ['a', 'l', 's', 'e'], by simp [ser], by decide, by decide, by decide⟩
  | str s =>
    exact ⟨'"', escapeList s.data ++ ['"'], by simp [ser, serStr], by decide, by decide, by decide⟩
  | num i =>
    by_cases hneg : i < 0
    · exact ⟨'-', natRepr i.natAbs, by simp [ser, intRepr, hneg], by decide, by decide, by decide⟩
    · by_cases h0 : i.natAbs = 0
      · exact ⟨'0', [], by simp [ser, intRepr, hneg, natRepr, h0], by decide, by decide, by decide⟩
      · obtain ⟨dd, ds, heq, hdig, -⟩ :=
          natDigits_head i.natAbs i.natAbs (by omega) le_rfl
        exact ⟨dd, ds, by simp [ser, intRepr, hneg, natRepr, h0, heq],
          digit_not_ws dd hdig, digit_ne dd hdig ']' (by decide), digit_ne dd hdig '}' (by decide)⟩
  | arr es =>
    cases es with
    | nil => exact ⟨'[', [']'], by simp [ser], by decide, by decide, by decide⟩
    | cons e es =>
      exact ⟨'[', w (d + 1) ++ ser w colon (d + 1) e ++ serElems w colon (d + 1) es ++ w d ++ [']'],
        by simp [ser], by decide, by decide, by decide⟩
  | obj fs =>
    cases fs with
    | nil => exact ⟨'{', ['}'], by simp [ser], by decide, by decide, by decide⟩
    | cons f fs =>
      obtain ⟨k, v⟩ := f
      exact ⟨'{', w (d + 1) ++ serStr k ++ ':' :: (colon ++ ser w colon (d + 1) v) ++
          serMembers w colon (d + 1) fs ++ w d ++ ['}'],
        by simp [ser], by decide, by decide, by decide⟩

mutual

theorem sizeF_le_len (v : Json) : ∀ (w : Nat → List Char) (colon : List Char) (d : Nat),
    sizeF v ≤ (ser w colon d v).length := by
  intro w colon d
  cases v with
  | null => simp [sizeF, ser]
  | bool b => cases b <;> simp [sizeF, ser]
  | num i =>
    have : 1 ≤ (intRepr i).length := by
      by_cases hneg : i < 0
      · simp [intRepr, hneg]
      · by_cases h0 : i.natAbs = 0
        · simp [intRepr, hneg, natRepr, h0]
        · obtain ⟨dd, ds, heq, -, -⟩ := natDigits_head i.natAbs i.natAbs (by omega) le_rfl
          simp [intRepr, hneg, natRepr, h0, heq]
    simpa [sizeF, ser] using this
  | str s => simp [sizeF, ser, serStr]
  | arr es =>
    cases es with
    | nil => simp [sizeF, ser]
    | cons e es =>
      have h1 := sizeF_le_len e w colon (d + 1)
      have h2 := sizeFElems_le_len es w colon (d + 1)
      simp only [sizeF, sizeFElems, ser, List.length_cons, List.length_append,
        List.length_singleton]
      omega
  | obj fs =>
    cases fs with
    | nil => simp [sizeF, ser]
    | cons f fs =>
      obtain ⟨k, v2⟩ := f
      have h1 := sizeF_le_len v2 w colon (d + 1)
      have h2 := sizeFMembers_le_len fs w colon (d + 1)
      simp only [sizeF, sizeFMembers, ser, List.length_cons, List.length_append,
        List.length_singleton]
      omega

theorem sizeFElems_le_len (es : List Json) : ∀ (w : Nat → List Char) (colon : List Char) (d : Nat),
    sizeFElems es ≤ (serElems w colon d es).length := by
  intro w colon d
  cases es with
  | nil => simp [sizeFElems, serElems]
  | cons e es =>
    have h1 := sizeF_le_len e w colon d
    have h2 := sizeFElems_le_len es w colon d
    simp only [sizeFElems, serElems, List.length_cons, List.length_append]
    omega

theorem sizeFMembers_le_len (fs : List (String × Json)) :
    ∀ (w : Nat → List Char) (colon : List Char) (d : Nat),
    sizeFMembers fs ≤ (serMembers w colon d fs).length := by
  intro w colon d
  cases fs with
  | nil => simp [sizeFMembers, serMembers]
  | cons f fs =>
    obtain ⟨k, v2⟩ := f
    have h1 := sizeF_le_len v2 w colon d
    have h2 := sizeFMembers_le_len fs w colon d
    simp only [sizeFMembers, serMembers, List.length_cons, List.length_append]
    omega

end

mutual

theorem ser_depth_congr (v : Json) :
    ∀ (w1 w2 : Nat → List Char) (colon : List Char) (d1 d2 : Nat),
    (∀ k, w1 (d1 + k) = w2 (d2 + k)) → ser w1 colon d1 v = ser w2 colon d2 v := by
  intro w1 w2 colon d1 d2 h
  have h0 : w1 d1 = w2 d2 := by simpa using h 0
  have h1 : w1 (d1 + 1) = w2 (d2 + 1) := by simpa using h 1
  have hs : ∀ k, w1 (d1 + 1 + k) = w2 (d2 + 1 + k) := by
    intro k
    rw [Nat.add_assoc d1 1 k, Nat.add_assoc d2 1 k]
    exact h (1 + k)
  cases v with
  | null => simp [ser]
  | bool b => cases b <;> simp [ser]
  | num i => simp [ser]
  | str s => simp [ser]
  | arr es =>
    cases es with
    | nil => simp [ser]
    | cons e es =>
      simp only [ser]
      rw [h0, h1, ser_depth_congr e w1 w2 colon (d1 + 1) (d2 + 1) hs,
        serElems_depth_congr es w1 w2 colon (d1 + 1) (d2 + 1) hs]
  | obj fs =>
    cases fs with
    | nil => simp [ser]
    | cons f fs =>
      obtain ⟨k, v2⟩ := f
      simp only [ser]
      rw [h0, h1, ser_depth_congr v2 w1 w2 colon (d1 + 1) (d2 + 1) hs,
        serMembers_depth_congr fs w1 w2 colon (d1 + 1) (d2 + 1) hs]

theorem serElems_depth_congr (es : List Json) :
    ∀ (w1 w2 : Nat → List Char) (colon : List Char) (d1 d2 : Nat),
    (∀ k, w1 (d1 + k) = w2 (d2 + k)) → serElems w1 colon d1 es = serElems w2 colon d2 es := by
  intro w1 w2 colon d1 d2 h
  have h0 : w1 d1 = w2 d2 := by simpa using h 0
  cases es with
  | nil => simp [serElems]
  | cons e es =>
    simp only [serElems]
    rw [h0, ser_depth_congr e w1 w2 colon d1 d2 h, serElems_depth_congr es w1 w2 colon d1 d2 h]

theorem serMembers_depth_congr (fs : List (String × Json)) :
    ∀ (w1 w2 : Nat → List Char) (colon : List Char) (d1 d2 : Nat),
    (∀ k, w1 (d1 + k) = w2 (d2 + k)) → serMembers w1 colon d1 fs = serMembers w2 colon d2 fs := by
  intro w1 w2 colon d1 d2 h
  have h0 : w1 d1 = w2 d2 := by simpa using h 0
  cases fs with
  | nil => simp [serMembers]
  | cons f fs =>
    obtain ⟨k, v2⟩ := f
    simp only [serMembers]
    rw [h0, ser_depth_congr v2 w1 w2 colon d1 d2 h, serMembers_depth_congr fs w1 w2 colon d1 d2 h]

end

theorem isDigit_toNat_bounds (c : Char) (h : c.isDigit = true) :
    48 ≤ c.toNat ∧ c.toNat ≤ 57 := by
  simp only [Char.isDigit, Bool.and_eq_true, decide_eq_true_eq] at h
  exact h

theorem escapeChar_length_pos (c : Char) : 1 ≤ (escapeChar c).length := by
  unfold escapeChar
  split_ifs <;> simp

theorem escapeList_length_ge (s : List Char) : s.length ≤ (escapeList s).length := by
  induction s with
  | nil => simp [escapeList]
  | cons c t ih =>
    have := escapeChar_length_pos c
    simp only [escapeList, List.length_cons, List.length_append]
    omega

theorem parseValue_quote (f : Nat) (X : List Char) :
    parseValue (f + 1) ('"' :: X)
      = match parseStringBody (X.length + 1) X with
        | .error e => .error e
        | .ok (s, r) => .ok (.str (String.mk s), r) := rfl

theorem parseValue_minus (f : Nat) (X : List Char) :
    parseValue (f + 1) ('-' :: X)
      = match parseNat X with
        | .error e => .error e
        | .ok (n, r) => .ok (.num (-(n : Int)), r) := rfl

theorem parseValue_lbracket (f : Nat) (X : List Char) :
    parseValue (f + 1) ('[' :: X)
      = match skipWs X with
        | ']' :: r => .ok (.arr [], r)
        | r =>
          match parseElems f r with
          | .error e => .error e
          | .ok (es, r2) => .ok (.arr es, r2) := rfl

theorem parseValue_lbrace (f : Nat) (X : List Char) :
    parseValue (f + 1) ('{' :: X)
      = match skipWs X with
        | '}' :: r => .ok (.obj [], r)
        | r =>
          match parseMembers f [] r with
          | .error e => .error e
          | .ok (fs, r2) => .ok (.obj fs, r2) := rfl

theorem parseValue_digit (f : Nat) (c : Char) (X : List Char) (h : c.isDigit = true) :
    parseValue (f + 1) (c :: X)
      = match parseNat (c :: X) with
        | .error e => .error e
        | .ok (n, r) => .ok (.num (n : Int), r) := by
  obtain ⟨hb1, hb2⟩ := isDigit_toNat_bounds c h
  obtain ⟨m, hm1, hm2, rfl⟩ : ∃ m, 48 ≤ m ∧ m ≤ 57 ∧ Char.ofNat m = c :=
    ⟨c.toNat, hb1, hb2, Char.ofNat_toNat c⟩
  interval_cases m <;> rfl

theorem parseValue_dropWs (f : Nat) (l : List Char) (h : wsOnly l = true)
    (cs : List Char) : parseValue f (l ++ cs) = parseValue f cs := by
  cases f with
  | zero => rfl
  | succ g => simp only [parseValue, skipWs_append l h cs]

theorem parseElems_dropWs (f : Nat) (l : List Char) (h : wsOnly l = true)
    (cs : List Char) : parseElems f (l ++ cs) = parseElems f cs := by
  cases f with
  | zero => rfl
  | succ g => simp only [parseElems, parseValue_dropWs g l h cs]

theorem parseMembers_dropWs (f : Nat) (l : List Char) (h : wsOnly l = true)
    (acc : List (String × Json)) (cs : List Char) :
    parseMembers f acc (l ++ cs) = parseMembers f acc cs := by
  cases f with
  | zero => rfl
  | succ g => simp only [parseMembers, skipWs_append l h cs]

theorem parseElems_step (f : Nat) (cs : List Char) (v : Json) (rest0 : List Char)
    (h : parseValue f cs = .ok (v, rest0)) :
    parseElems (f + 1) cs
      = match skipWs rest0 with
        | ',' :: r =>
          match parseElems f r with
          | .error e => .error e
          | .ok (es, r2) => .ok (v :: es, r2)
        | ']' :: r => .ok ([v], r)
        | _ => .error .expectedCommaOrEnd := by
  simp only [parseElems, h]

theorem parseMembers_step (f : Nat) (acc : List (String × Json)) (X : List Char)
    (k0 r1 : List Char) (hK : parseStringBody (X.length + 1) X = .ok (k0, r1)) :
    parseMembers (f + 1) acc ('"' :: X)
      = match skipWs r1 with
        | ':' :: r2 =>
          match parseValue f r2 with
          | .error e => .error e
          | .ok (v, r3) =>
            match skipWs r3 with
            | ',' :: r4 => parseMembers f (insertKV (String.mk k0) v acc) r4
            | '}' :: r4 => .ok (insertKV (String.mk k0) v acc, r4)
            | _ => .error .expectedCommaOrEnd
        | _ => .error .expectedColon := by
  simp only [parseMembers, skipWs_cons_of_not '"' X (by decide), hK]

theorem allLt_of_sortedKeys_append :
    ∀ (acc : List (String × Json)) (k : String) (v : Json) (fs : List (String × Json)),
    sortedKeys (acc ++ (k, v) :: fs) = true → allLt acc k = true := by
  intro acc
  induction acc with
  | nil => intro k v fs _; rfl
  | cons p acc ih =>
    obtain ⟨ka, va⟩ := p
    intro k v fs h
    simp only [List.cons_append, sortedKeys, Bool.and_eq_true] at h
    simp only [allLt, Bool.and_eq_true]
    refine ⟨?_, ih k v fs h.2⟩
    exact (ltAll_spec ka _).mp h.1 (k, v) (by simp)

mutual

theorem rt_val (w : Nat → List Char) (colon : List Char)
    (hw : ∀ d0, wsOnly (w d0) = true) (hc : wsOnly colon = true) (v : Json) :
    ∀ (fuel d : Nat) (rest : List Char), canonical v = true → sizeF v ≤ fuel →
    tailOk rest = true →
    parseValue fuel (ser w colon d v ++ rest) = .ok (v, rest) := by
  intro fuel d rest hcan hfuel htail
  obtain ⟨f, rfl⟩ : ∃ f, fuel = f + 1 := ⟨fuel - 1, by have := sizeF_pos v; omega⟩
  cases v with
  | null =>
    rw [show ser w colon d .null = "null".data from by simp [ser]]
    rfl
  | bool b =>
    cases b with
    | true =>
      rw [show ser w colon d (.bool true) = "true".data from by simp [ser]]
      rfl
    | false =>
      rw [show ser w colon d (.bool false) = "false".data from by simp [ser]]
      rfl
  | num i =>
    rw [show ser w colon d (.num i) = intRepr i from by simp [ser]]
    by_cases hneg : i < 0
    · rw [show intRepr i = '-' :: natRepr i.natAbs from by simp [intRepr, hneg],
        List.cons_append, parseValue_minus, parseNat_natRepr i.natAbs rest htail]
      show Except.ok (Json.num (-(i.natAbs : Int)), rest) = Except.ok (Json.num i, rest)
      have hval : -((i.natAbs : Int)) = i := by omega
      rw [hval]
    · by_cases h0 : i.natAbs = 0
      · rw [show intRepr i = ['0'] from by simp [intRepr, hneg, natRepr, h0],
          List.singleton_append, parseValue_digit f '0' rest (by decide),
          show ('0' :: rest) = natRepr 0 ++ rest from by simp [natRepr],
          parseNat_natRepr 0 rest htail]
        show Except.ok (Json.num ((0 : Nat) : Int), rest) = Except.ok (Json.num i, rest)
        have hval : (((0 : Nat)) : Int) = i := by omega
        rw [hval]
      · obtain ⟨dd, ds, heq, hdig, -⟩ := natDigits_head i.natAbs i.natAbs (by omega) le_rfl
        have hnr : natRepr i.natAbs = dd :: ds := by simp [natRepr, h0, heq]
        rw [show intRepr i = natRepr i.natAbs from by simp [intRepr, hneg], hnr,
          List.cons_append, parseValue_digit f dd _ hdig,
          show dd :: (ds ++ rest) = natRepr i.natAbs ++ rest from by rw [hnr]; simp,
          parseNat_natRepr i.natAbs rest htail]
        show Except.ok (Json.num ((i.natAbs : Nat) : Int), rest) = Except.ok (Json.num i, rest)
        have hval : (((i.natAbs : Nat)) : Int) = i := by omega
        rw [hval]
  | str s =>
    rw [show ser w colon d (.str s) ++ rest = '"' :: (escapeList s.data ++ ('"' :: rest)) from by
      simp [ser, serStr], parseValue_quote]
    have hlen : s.data.length < (escapeList s.data ++ ('"' :: rest)).length + 1 := by
      have := escapeList_length_ge s.data
      simp only [List.length_append, List.length_cons]
      omega
    rw [parseStringBody_escapeList s.data _ rest hlen]
  | arr es =>
    cases es with
    | nil =>
      rw [show ser w colon d (.arr []) = ['[', ']'] from by simp [ser]]
      rfl
    | cons e es =>
      simp only [canonical, canonicalList, Bool.and_eq_true] at hcan
      simp only [sizeF, sizeFElems] at hfuel
      rw [show ser w colon d (.arr (e :: es)) ++ rest
          = '[' :: (w (d + 1) ++ (ser w colon (d + 1) e ++ (serElems w colon (d + 1) es ++
              (w d ++ (']' :: rest))))) from by simp [ser],
        parseValue_lbracket, skipWs_append (w (d + 1)) (hw (d + 1))]
      obtain ⟨c0, t0, hser, hnws, hnrb, -⟩ := ser_head w colon (d + 1) e
      have hE : parseElems f
          (c0 :: (t0 ++ (serElems w colon (d + 1) es ++ (w d ++ (']' :: rest)))))
          = .ok (e :: es, rest) := by
        rw [show c0 :: (t0 ++ (serElems w colon (d + 1) es ++ (w d ++ (']' :: rest))))
            = ser w colon (d + 1) e ++ (serElems w colon (d + 1) es ++ (w d ++ (']' :: rest)))
            from by rw [hser]; simp]
        exact rt_elems w colon hw hc e es f d rest hcan.1 hcan.2 (by omega)
      rw [show ser w colon (d + 1) e ++ (serElems w colon (d + 1) es ++ (w d ++ (']' :: rest)))
          = c0 :: (t0 ++ (serElems w colon (d + 1) es ++ (w d ++ (']' :: rest))))
          from by rw [hser]; simp]
      rw [skipWs_cons_of_not c0 _ hnws]
      split
      · next r heq =>
        simp only [List.cons.injEq] at heq
        exact absurd heq.1 hnrb
      · rw [hE]
  | obj fs =>
    rcases fs with _ | ⟨⟨k, v2⟩, fs⟩
    · rw [show ser w colon d (.obj []) = ['{', '}'] from by simp [ser]]
      rfl
    · simp only [canonical, canonicalMembers, Bool.and_eq_true] at hcan
      simp only [sizeF, sizeFMembers] at hfuel
      rw [show ser w colon d (.obj ((k, v2) :: fs)) ++ rest
          = '{' :: (w (d + 1) ++ (serStr k ++ (':' :: (colon ++ (ser w colon (d + 1) v2 ++
              (serMembers w colon (d + 1) fs ++ (w d ++ ('}' :: rest)))))))) from by simp [ser],
        parseValue_lbrace, skipWs_append (w (d + 1)) (hw (d + 1))]
      have hM : parseMembers f []
          (serStr k ++ (':' :: (colon ++ (ser w colon (d + 1) v2 ++
            (serMembers w colon (d + 1) fs ++ (w d ++ ('}' :: rest)))))))
          = .ok ([] ++ (k, v2) :: fs, rest) :=
        rt_members w colon hw hc v2 fs f d rest k [] hcan.2.1 hcan.2.2
          (by simpa using hcan.1) (by omega)
      rw [show serStr k ++ (':' :: (colon ++ (ser w colon (d + 1) v2 ++
            (serMembers w colon (d + 1) fs ++ (w d ++ ('}' :: rest))))))
          = '"' :: ((escapeList k.data ++ ['"']) ++ (':' :: (colon ++ (ser w colon (d + 1) v2 ++
            (serMembers w colon (d + 1) fs ++ (w d ++ ('}' :: rest)))))))
          from by simp [serStr]]
      rw [skipWs_cons_of_not '"' _ (by decide)]
      have hM2 : parseMembers f [] ('"' :: ((escapeList k.data ++ ['"']) ++ (':' :: (colon ++
            (ser w colon (d + 1) v2 ++ (serMembers w colon (d + 1) fs ++ (w d ++ ('}' :: rest))))))))
          = .ok ((k, v2) :: fs, rest) := by
        rw [show ('"' : Char) :: ((escapeList k.data ++ ['"']) ++ (':' :: (colon ++
            (ser w colon (d + 1) v2 ++ (serMembers w colon (d + 1) fs ++ (w d ++ ('}' :: rest)))))))
            = serStr k ++ (':' :: (colon ++ (ser w colon (d + 1) v2 ++
              (serMembers w colon (d + 1) fs ++ (w d ++ ('}' :: rest))))))
            from by simp [serStr]]
        simpa using hM
      show (match parseMembers f [] ('"' :: ((escapeList k.data ++ ['"']) ++ (':' :: (colon ++
          (ser w colon (d + 1) v2 ++ (serMembers w colon (d + 1) fs ++ (w d ++ ('}' :: rest)))))))) with
        | Except.error e => Except.error e
        | Except.ok (fs2, r2) => Except.ok (Json.obj fs2, r2))
        = Except.ok (Json.obj ((k, v2) :: fs), rest)
      rw [hM2]
termination_by fuel d rest h1 h2 h3 => fuel

theorem rt_elems (w : Nat → List Char) (colon : List Char)
    (hw : ∀ d0, wsOnly (w d0) = true) (hc : wsOnly colon = true)
    (e : Json) (es : List Json) :
    ∀ (fuel d : Nat) (rest : List Char), canonical e = true → canonicalList es = true →
    1 + sizeF e + sizeFElems es ≤ fuel →
    parseElems fuel
      (ser w colon (d + 1) e ++ (serElems w colon (d + 1) es ++ (w d ++ (']' :: rest))))
      = .ok (e :: es, rest) := by
  intro fuel d rest hce hces hfuel
  obtain ⟨f, rfl⟩ : ∃ f, fuel = f + 1 := ⟨fuel - 1, by omega⟩
  have htail2 : tailOk (serElems w colon (d + 1) es ++ (w d ++ (']' :: rest))) = true := by
    cases es with
    | nil =>
      rw [show serElems w colon (d + 1) ([] : List Json) = [] from by simp [serElems],
        List.nil_append]
      exact tailOk_ws_close (w d) ']' rest (hw d) (by decide)
    | cons e2 es2 =>
      rw [show serElems w colon (d + 1) (e2 :: es2)
          = ',' :: (w (d + 1) ++ ser w colon (d + 1) e2 ++ serElems w colon (d + 1) es2)
          from by simp [serElems]]
      rfl
  have hV := rt_val w colon hw hc e f (d + 1)
    (serElems w colon (d + 1) es ++ (w d ++ (']' :: rest))) hce (by omega) htail2
  rw [parseElems_step f _ e _ hV]
  cases es with
  | nil =>
    rw [show serElems w colon (d + 1) ([] : List Json) ++ (w d ++ (']' :: rest))
        = w d ++ (']' :: rest) from by simp [serElems],
      skipWs_append (w d) (hw d), skipWs_cons_of_not ']' rest (by decide)]
    rfl
  | cons e2 es2 =>
    simp only [canonicalList, Bool.and_eq_true] at hces
    simp only [sizeFElems] at hfuel
    rw [show serElems w colon (d + 1) (e2 :: es2) ++ (w d ++ (']' :: rest))
        = ',' :: (w (d + 1) ++ (ser w colon (d + 1) e2 ++ (serElems w colon (d + 1) es2 ++
            (w d ++ (']' :: rest))))) from by simp [serElems],
      skipWs_cons_of_not ',' _ (by decide)]
    have hR : parseElems f (w (d + 1) ++ (ser w colon (d + 1) e2 ++
        (serElems w colon (d + 1) es2 ++ (w d ++ (']' :: rest))))) = .ok (e2 :: es2, rest) := by
      rw [parseElems_dropWs f (w (d + 1)) (hw (d + 1))]
      exact rt_elems w colon hw hc e2 es2 f d rest hces.1 hces.2 (by omega)
    show (match parseElems f (w (d + 1) ++ (ser w colon (d + 1) e2 ++
        (serElems w colon (d + 1) es2 ++ (w d ++ (']' :: rest))))) with
      | Except.error e3 => Except.error e3
      | Except.ok (es3, r2) => Except.ok (e :: es3, r2))
      = Except.ok (e :: e2 :: es2, rest)
    rw [hR]
termination_by fuel d rest h1 h2 h3 => fuel

theorem rt_members (w : Nat → List Char) (colon : List Char)
    (hw : ∀ d0, wsOnly (w d0) = true) (hc : wsOnly colon = true)
    (v : Json) (fs : List (String × Json)) :
    ∀ (fuel d : Nat) (rest : List Char) (k : String) (acc : List (String × Json)),
    canonical v = true → canonicalMembers fs = true →
    sortedKeys (acc ++ (k, v) :: fs) = true →
    1 + sizeF v + sizeFMembers fs ≤ fuel →
    parseMembers fuel acc
      (serStr k ++ (':' :: (colon ++ (ser w colon (d + 1) v ++
        (serMembers w colon (d + 1) fs ++ (w d ++ ('}' :: rest)))))))
      = .ok (acc ++ (k, v) :: fs, rest) := by
  intro fuel d rest k acc hcv hcm hsort hfuel
  obtain ⟨f, rfl⟩ : ∃ f, fuel = f + 1 := ⟨fuel - 1, by omega⟩
  rw [show serStr k ++ (':' :: (colon ++ (ser w colon (d + 1) v ++
        (serMembers w colon (d + 1) fs ++ (w d ++ ('}' :: rest))))))
      = '"' :: (escapeList k.data ++ ('"' :: (':' :: (colon ++ (ser w colon (d + 1) v ++
        (serMembers w colon (d + 1) fs ++ (w d ++ ('}' :: rest))))))))
      from by simp [serStr]]
  have hK : parseStringBody
      ((escapeList k.data ++ ('"' :: (':' :: (colon ++ (ser w colon (d + 1) v ++
        (serMembers w colon (d + 1) fs ++ (w d ++ ('}' :: rest)))))))).length + 1)
      (escapeList k.data ++ ('"' :: (':' :: (colon ++ (ser w colon (d + 1) v ++
        (serMembers w colon (d + 1) fs ++ (w d ++ ('}' :: rest))))))))
      = .ok (k.data, ':' :: (colon ++ (ser w colon (d + 1) v ++
        (serMembers w colon (d + 1) fs ++ (w d ++ ('}' :: rest)))))) := by
    apply parseStringBody_escapeList
    have := escapeList_length_ge k.data
    simp only [List.length_append, List.length_cons]
    omega
  rw [parseMembers_step f acc _ k.data _ hK, skipWs_cons_of_not ':' _ (by decide)]
  have htail3 : tailOk (serMembers w colon (d + 1) fs ++ (w d ++ ('}' :: rest))) = true := by
    cases fs with
    | nil =>
      rw [show serMembers w colon (d + 1) ([] : List (String × Json)) = []
          from by simp [serMembers], List.nil_append]
      exact tailOk_ws_close (w d) '}' rest (hw d) (by decide)
    | cons kv2 fs2 =>
      obtain ⟨k2, v2⟩ := kv2
      rw [show serMembers w colon (d + 1) ((k2, v2) :: fs2)
          = ',' :: (w (d + 1) ++ serStr k2 ++ ':' :: (colon ++ ser w colon (d + 1) v2) ++
              serMembers w colon (d + 1) fs2) from by simp [serMembers]]
      rfl
  have hV : parseValue f (colon ++ (ser w colon (d + 1) v ++
      (serMembers w colon (d + 1) fs ++ (w d ++ ('}' :: rest))))) = .ok (v,
      serMembers w colon (d + 1) fs ++ (w d ++ ('}' :: rest))) := by
    rw [parseValue_dropWs f colon hc]
    exact rt_val w colon hw hc v f (d + 1) _ hcv (by omega) htail3
  show (match parseValue f (colon ++ (ser w colon (d + 1) v ++
      (serMembers w colon (d + 1) fs ++ (w d ++ ('}' :: rest))))) with
    | Except.error e => Except.error e
    | Except.ok (v0, r3) =>
      match skipWs r3 with
      | ',' :: r4 => parseMembers f (insertKV (String.mk k.data) v0 acc) r4
      | '}' :: r4 => Except.ok (insertKV (String.mk k.data) v0 acc, r4)
      | _ => Except.error JErr.expectedCommaOrEnd)
    = Except.ok (acc ++ (k, v) :: fs, rest)
  rw [hV]
  have hmkk : String.mk k.data = k := by cases k; rfl
  have hIns : insertKV (String.mk k.data) v acc = acc ++ [(k, v)] := by
    rw [hmkk]
    exact insertKV_append acc k v (allLt_of_sortedKeys_append acc k v fs hsort)
  show (match skipWs (serMembers w colon (d + 1) fs ++ (w d ++ ('}' :: rest))) with
    | ',' :: r4 => parseMembers f (insertKV (String.mk k.data) v acc) r4
    | '}' :: r4 => Except.ok (insertKV (String.mk k.data) v acc, r4)
    | _ => Except.error JErr.expectedCommaOrEnd)
    = Except.ok (acc ++ (k, v) :: fs, rest)
  rcases fs with _ | ⟨⟨k2, v2⟩, fs2⟩
  · rw [show serMembers w colon (d + 1) ([] : List (String × Json)) ++ (w d ++ ('}' :: rest))
        = w d ++ ('}' :: rest) from by simp [serMembers],
      skipWs_append (w d) (hw d), skipWs_cons_of_not '}' rest (by decide)]
    show Except.ok (insertKV (String.mk k.data) v acc, rest)
      = Except.ok (acc ++ (k, v) :: [], rest)
    rw [hIns]
  · simp only [canonicalMembers, Bool.and_eq_true] at hcm
    simp only [sizeFMembers] at hfuel
    rw [show serMembers w colon (d + 1) ((k2, v2) :: fs2) ++ (w d ++ ('}' :: rest))
        = ',' :: (w (d + 1) ++ (serStr k2 ++ (':' :: (colon ++ (ser w colon (d + 1) v2 ++
            (serMembers w colon (d + 1) fs2 ++ (w d ++ ('}' :: rest))))))))
        from by simp [serMembers],
      skipWs_cons_of_not ',' _ (by decide)]
    show parseMembers f (insertKV (String.mk k.data) v acc)
        (w (d + 1) ++ (serStr k2 ++ (':' :: (colon ++ (ser w colon (d + 1) v2 ++
          (serMembers w colon (d + 1) fs2 ++ (w d ++ ('}' :: rest))))))))
      = .ok (acc ++ (k, v) :: (k2, v2) :: fs2, rest)
    rw [parseMembers_dropWs f (w (d + 1)) (hw (d + 1)), hIns]
    have hsort2 : sortedKeys ((acc ++ [(k, v)]) ++ (k2, v2) :: fs2) = true := by
      simpa [List.append_assoc] using hsort
    rw [rt_members w colon hw hc v2 fs2 f d rest k2 (acc ++ [(k, v)]) hcm.1 hcm.2 hsort2
      (by omega)]
    simp
termination_by fuel d rest k acc h1 h2 h3 h4 => fuel

end

theorem processLoop_ok (pretty : Bool) : ∀ (lines : List String) (vs : List Json),
    List.Forall₂ (fun l v => from_str l = .ok v) lines vs →
    ∀ out, processLoop pretty lines false out = .ok (out ++ loopTail pretty vs) := by
  intro lines vs h
  induction h with
  | nil => intro out; simp [processLoop, loopTail]
  | @cons l v lines2 vs2 hlv htl ih =>
    intro out
    simp only [processLoop, hlv, Bool.false_eq_true, if_false]
    rw [ih]
    simp [loopTail, sepChars, serChars, List.append_assoc]

theorem processLines_chars (pretty : Bool) (l : String) (lines2 : List String)
    (v : Json) (vs2 : List Json) (hlv : from_str l = .ok v)
    (h : List.Forall₂ (fun l2 v2 => from_str l2 = .ok v2) lines2 vs2) :
    processLines (l :: lines2) pretty
      = .ok (String.mk (('[' :: (if pretty then ['\n'] else [])) ++
          (serChars pretty v ++ loopTail pretty vs2) ++
          ((if pretty then ['\n'] else []) ++ [']']))) := by
  simp only [processLines, processLoop, hlv, if_true]
  rw [processLoop_ok pretty lines2 vs2 h]
  simp [serChars, List.append_assoc]

theorem loopTail_compact : ∀ vs : List Json, loopTail false vs = serElems wsCompact [] 1 vs := by
  intro vs
  induction vs with
  | nil => rfl
  | cons v2 rest ih =>
    have hd : (to_string v2).data = ser wsCompact [] 1 v2 := by
      rw [show (to_string v2).data = ser wsCompact [] 0 v2 from rfl]
      exact ser_depth_congr v2 wsCompact wsCompact [] 0 1 (fun k => rfl)
    simp [loopTail, sepChars, serChars, serElems, ih, wsCompact, hd]

theorem wsProc_shift : ∀ k, wsProc (1 + k) = wsPretty (0 + k) := by
  intro k
  rw [Nat.add_comm 1 k, Nat.zero_add]
  rfl

theorem loopTail_pretty : ∀ vs : List Json, loopTail true vs = serElems wsProc [' '] 1 vs := by
  intro vs
  induction vs with
  | nil => rfl
  | cons v2 rest ih =>
    have hd : (to_string_pretty v2).data = ser wsProc [' '] 1 v2 := by
      rw [show (to_string_pretty v2).data = ser wsPretty [' '] 0 v2 from rfl]
      exact ser_depth_congr v2 wsPretty wsProc [' '] 0 1 (fun k => (wsProc_shift k).symm)
    simp [loopTail, sepChars, serChars, serElems, ih, wsProc, wsPretty, indentChars, hd]

theorem ser_arr_compact (v : Json) (vs2 : List Json) :
    ser wsCompact [] 0 (.arr (v :: vs2))
      = '[' :: ((to_string v).data ++ (loopTail false vs2 ++ [']'])) := by
  simp only [ser, loopTail_compact]
  rw [show (to_string v).data = ser wsCompact [] 0 v from rfl,
    ser_depth_congr v wsCompact wsCompact [] 0 1 (fun k => rfl)]
  simp [wsCompact]

theorem ser_arr_procPretty (v : Json) (vs2 : List Json) :
    ser wsProc [' '] 0 (.arr (v :: vs2))
      = '[' :: ('\n' :: ((to_string_pretty v).data ++ (loopTail true vs2 ++ ('\n' :: [']'])))) := by
  simp only [ser, loopTail_pretty]
  rw [show (to_string_pretty v).data = ser wsPretty [' '] 0 v from rfl,
    ser_depth_congr v wsPretty wsProc [' '] 0 1 (fun k => (wsProc_shift k).symm)]
  simp [wsProc, wsPretty, indentChars]

theorem from_str_canonical (s : String) (v : Json) (h : from_str s = .ok v) :
    canonical v = true := by
  simp only [from_str] at h
  split at h
  · exact Except.noConfusion h
  · next v0 r0 heq =>
    split at h
    · simp only [Except.ok.injEq] at h
      rw [← h]
      exact (parse_canonical (s.data.length + 1)).1 s.data v0 r0 heq
    · exact Except.noConfusion h

theorem forall2_canonicalList :
    ∀ (lines : List String) (vs : List Json),
    List.Forall₂ (fun l v => from_str l = .ok v) lines vs → canonicalList vs = true := by
  intro lines vs h
  induction h with
  | nil => rfl
  | @cons l v lines2 vs2 hlv htl ih =>
    simp [canonicalList, from_str_canonical l v hlv, ih]

theorem from_str_of_ser (w : Nat → List Char) (colon : List Char)
    (hw : ∀ d0, wsOnly (w d0) = true) (hc : wsOnly colon = true)
    (v : Json) (hcan : canonical v = true) :
    from_str (String.mk (ser w colon 0 v)) = .ok v := by
  have hPV := rt_val w colon hw hc v ((ser w colon 0 v).length + 1) 0 [] hcan
    (by have := sizeF_le_len v w colon 0; omega) rfl
  rw [List.append_nil] at hPV
  simp only [from_str]
  simp [hPV, skipWs]

/-- Claim C1: for every finite sequence of syntactically valid JSON lines
(line `i` parsing to value `vᵢ`), the transcoder succeeds and its output
parses back as a JSON array whose elements are exactly `v₁, …, vₙ` in
input order — for both formatting modes, hence for every ordering of the
lines, with no reordering, duplication or loss. -/
theorem C1_output_parses_back (pretty : Bool) (lines : List String) (vs : List Json)
    (h : List.Forall₂ (fun l v => from_str l = .ok v) lines vs) :
    ∃ out, processLines lines pretty = .ok out ∧ from_str out = .ok (.arr vs) := by
  cases h with
  | nil =>
    cases pretty with
    | false => exact ⟨"[]", rfl, rfl⟩
    | true => exact ⟨"[\n\n]", rfl, rfl⟩
  | @cons l v lines2 vs2 hlv htl =>
    have hcanArr : canonical (.arr (v :: vs2)) = true := by
      simp [canonical, canonicalList, from_str_canonical l v hlv,
        forall2_canonicalList lines2 vs2 htl]
    cases pretty with
    | false =>
      refine ⟨_, processLines_chars false l lines2 v vs2 hlv htl, ?_⟩
      rw [show ('[' :: (if false then ['\n'] else [])) ++
            (serChars false v ++ loopTail false vs2) ++
            ((if false then ['\n'] else []) ++ [']'])
          = ser wsCompact [] 0 (.arr (v :: vs2)) from by
        rw [ser_arr_compact]
        simp [serChars, List.append_assoc]]
      exact from_str_of_ser wsCompact [] wsOnly_wsCompact rfl _ hcanArr
    | true =>
      refine ⟨_, processLines_chars true l lines2 v vs2 hlv htl, ?_⟩
      rw [show ('[' :: (if true then ['\n'] else [])) ++
            (serChars true v ++ loopTail true vs2) ++
            ((if true then ['\n'] else []) ++ [']'])
          = ser wsProc [' '] 0 (.arr (v :: vs2)) from by
        rw [ser_arr_procPretty]
        simp [serChars, List.append_assoc]]
      exact from_str_of_ser wsProc [' '] wsOnly_wsProc (by decide) _ hcanArr

/-- Witness for C1 on two concrete lines: a number and an object with
internal spacing. -/
theorem C1_witness :
    ∃ out, processLines ["1", "\x7b\"a\": true\x7d"] false = .ok out ∧
      from_str out = .ok (.arr [.num 1, .obj [("a", .bool true)]]) :=
  C1_output_parses_back false ["1", "\x7b\"a\": true\x7d"] [.num 1, .obj [("a", .bool true)]]
    (List.Forall₂.cons rfl (List.Forall₂.cons rfl List.Forall₂.nil))

example : from_str "\x7b\"foo\": \"bar\"\x7d" = .ok (.obj [("foo", .str "bar")]) := rfl

example : from_str "" = .error .eof := rfl

example : from_str "\x7b\"foo\": \"bar\"\x7d\x7b\"foo\": \"baz" = .error .trailingChars := rfl

example : process "\x7b\"foo\": \"bar\"\x7d\n\x7b\"foo\": \"baz\"\x7d" false
    = .ok "[\x7b\"foo\":\"bar\"\x7d,\x7b\"foo\":\"baz\"\x7d]" := rfl

example : process "\x7b\"foo\": \"bar\"\x7d\n\x7b\"foo\": \"baz\"\x7d" true
    = .ok "[\n\x7b\n  \"foo\": \"bar\"\n\x7d,\n\x7b\n  \"foo\": \"baz\"\n\x7d\n]" := rfl

example : process "" false = .ok "[]" := rfl

example : process "" true = .ok "[\n\n]" := rfl

example : from_str "[1,-20,true,null,[]]"
    = .ok (.arr [.num 1, .num (-20), .bool true, .null, .arr []]) := rfl

example : from_str "\x7b\"b\":1,\"a\":2,\"b\":3\x7d"
    = .ok (.obj [("a", .num 2), ("b", .num 3)]) := rfl

example : to_string (.obj [("a", .num 2), ("b", .num 3)]) = "\x7b\"a\":2,\"b\":3\x7d" := rfl

example : rustLines "a\n\nb" = ["a", "", "b"] := rfl

example : rustLines "a\r\nb\r" = ["a", "b\r"] := rfl
